import Mathlib

/-!
Verification model of the findex repository (Go): the text utilities of
internal/util/util.go, the shortlist-and-rank search of
internal/search/search.go, and the mark-and-sweep reconciliation of
internal/indexer/indexer.go.  Go strings are modelled as `List Char`
(one list element per character; for the source's byte-oriented operations
the two coincide on ASCII data), `int64` as `ℤ`, `float64` as `ℝ` (with
`math.Log1p x` as `Real.log (1 + x)`), Go string-keyed sets as
`Finset (List Char)`, and the SQLite `files` table as a `List` of rows in
rowid order.
-/

namespace Findex

/-! ## internal/util/util.go -/

/-- ASCII fragment of Go's `strings.ToLower` character mapping: uppercase
ASCII letters map to their lowercase forms, every other character is left
unchanged (the non-ASCII Unicode case mappings are not modelled; they are
likewise idempotent). -/
def toLowerGo (c : Char) : Char :=
  if 'A' ≤ c ∧ c ≤ 'Z' then Char.ofNat (c.toNat + 32) else c

/-- The character class of the regex `[\s_\-\.]+` in `util.Normalize`
(RE2's Perl class `\s` is `[\t\n\f\r ]`), plus underscore, hyphen and
period. -/
def isSpacey (c : Char) : Bool :=
  c = '\t' || c = '\n' || c = '\x0c' || c = '\r' || c = ' ' ||
  c = '_' || c = '-' || c = '.'

/-- Go's `unicode.IsSpace`: ASCII whitespace, next line, no-break space
and the Unicode space separators. -/
def isSpaceGo (c : Char) : Bool :=
  c = '\t' || c = '\n' || c = '\x0b' || c = '\x0c' || c = '\r' || c = ' ' ||
  c = '\u0085' || c = '\u00A0' || c = '\u1680' ||
  ('\u2000' ≤ c && c ≤ '\u200A') ||
  c = '\u2028' || c = '\u2029' || c = '\u202F' || c = '\u205F' || c = '\u3000'

/-- `spacey.ReplaceAllString s " "` in `util.Normalize`: each maximal run of
characters in the `[\s_\-\.]` class becomes a single space.  The flag records
whether the previous character belonged to the class (the run is already
open, so further class characters are dropped). -/
def replaceSpaceyAux : Bool → List Char → List Char
  | _, [] => []
  | inRun, c :: rest =>
    if isSpacey c then
      (if inRun then [] else [' ']) ++ replaceSpaceyAux true rest
    else c :: replaceSpaceyAux false rest

/-- Go `strings.TrimSpace`: drop leading and trailing Unicode whitespace. -/
def trimSpace (l : List Char) : List Char :=
  ((l.dropWhile isSpaceGo).reverse.dropWhile isSpaceGo).reverse

/-- The final loop of `util.Normalize`: copy characters, collapsing each run
of Unicode whitespace to one space; `lastSpace` tells whether a space was
just written. -/
def collapseWS : List Char → Bool → List Char
  | [], _ => []
  | c :: rest, lastSpace =>
    if isSpaceGo c then
      if lastSpace then collapseWS rest true
      else ' ' :: collapseWS rest true
    else c :: collapseWS rest false

/-- No two adjacent spaces: the pairwise relation a fully collapsed string
satisfies along consecutive characters. -/
def noAdjSp (a b : Char) : Prop := ¬(a = ' ' ∧ b = ' ')

/-- `util.Normalize`: lowercase, replace separator runs with single spaces,
trim, then collapse residual Unicode whitespace runs. -/
def Normalize (s : List Char) : List Char :=
  collapseWS (trimSpace (replaceSpaceyAux false (s.map toLowerGo))) false

/-- The stop-word list of `util.Tokenize`. -/
def stopwords : List (List Char) :=
  ["the", "a", "an", "and", "or", "of", "to"].map String.toList

/-- `util.Tokenize`: split the normalized string on single spaces, trim each
part, drop empty parts and stop words. -/
def Tokenize (norm : List Char) : List (List Char) :=
  if norm = [] then []
  else (((norm.splitOn ' ').map trimSpace).filter
    (fun p => !p.isEmpty && !stopwords.contains p))

/-- `util.Trigrams`: strip the spaces; a result shorter than 3 characters
yields the one-element set of the whole (possibly empty) string, otherwise
the set of all contiguous 3-character windows. -/
def Trigrams (s : List Char) : Finset (List Char) :=
  let t := s.filter (fun c => c != ' ')
  if t.length < 3 then {t}
  else ((List.range (t.length - 2)).map (fun i => (t.drop i).take 3)).toFinset

/-- `util.Jaccard` with its Go guard cases; the exact `float64` quotient of
the two small integers is modelled in `ℚ`. -/
def Jaccard (a b : Finset (List Char)) : ℚ :=
  if a.card = 0 ∧ b.card = 0 then 1
  else if a.card = 0 ∨ b.card = 0 then 0
  else
    let inter := (a ∩ b).card
    let union := a.card + b.card - inter
    if union = 0 then 0 else (inter : ℚ) / (union : ℚ)

/-- `util.ExtLower`: the lowercased extension of a filename, without its
leading period; empty when the name has no period (`filepath.Ext` takes the
suffix after the last period). -/
def ExtLower (name : List Char) : List Char :=
  if '.' ∈ name then
    ((name.reverse.takeWhile (fun c => c != '.')).reverse).map toLowerGo
  else []

/-! ## The sort (`sort.SliceStable` in internal/search/search.go) -/

/-- One step of a stable insertion sort: `a` is placed in front of the first
element it strictly precedes, hence after every earlier-inserted element it
ties with. -/
def insertStable {α : Type} (lt : α → α → Prop) [DecidableRel lt] (a : α) :
    List α → List α
  | [] => [a]
  | b :: l => if lt a b then a :: b :: l else b :: insertStable lt a l

/-- Stable sort by the strict comparison `lt`, modelling Go's
`sort.SliceStable`: the elements are inserted left to right, each one after
all elements it ties with. -/
def stableSortBy {α : Type} (lt : α → α → Prop) [DecidableRel lt]
    (l : List α) : List α :=
  l.foldl (fun acc a => insertStable lt a acc) []

/-! ## internal/search/search.go -/

/-- One row of the SQLite `files` table (`db.FileRow`). -/
structure Row where
  path : List Char
  filename : List Char
  filename_norm : List Char
  ext : List Char
  mtime : ℤ
  size : ℤ
  is_dir : Bool
  seen_gen : ℤ
deriving DecidableEq, Repr

/-- `search.QueryOptions`: the extension allow-set is `none` for a nil Go
map (`some ∅` models a non-nil empty map, which the source treats like
nil). -/
structure QueryOptions where
  limit : ℤ
  extFilter : Option (Finset (List Char))
  shortlist : ℤ
deriving DecidableEq

/-- `search.DefaultQueryOptions`. -/
def DefaultQueryOptions : QueryOptions := ⟨30, none, 800⟩

/-- `search.Result`, generic in the score type so that the ranking step can
be analysed for any linearly ordered score. -/
structure Result (α : Type) where
  path : List Char
  filename : List Char
  ext : List Char
  mtime : ℤ
  size : ℤ
  score : α
deriving DecidableEq

/-- The comparison closure handed to `sort.SliceStable` in `search.Search`:
primary key mtime descending, secondary key score descending. -/
def rankLT {α : Type} [LinearOrder α] (a b : Result α) : Prop :=
  b.mtime < a.mtime ∨ (a.mtime = b.mtime ∧ b.score < a.score)

instance {α : Type} [LinearOrder α] : DecidableRel (rankLT (α := α)) :=
  fun a b => inferInstanceAs (Decidable (_ ∨ _))

/-- `ORDER BY mtime DESC` over shortlist rows. -/
def rowLT (a b : Row) : Prop := b.mtime < a.mtime

instance : DecidableRel rowLT := fun a b => inferInstanceAs (Decidable (_ < _))

/-- The extension conjunct of the `WHERE` clause: present exactly when the
allow-set is non-nil and non-empty (`opts.ExtFilter != nil &&
len(opts.ExtFilter) > 0`). -/
def extOk (extFilter : Option (Finset (List Char))) (e : List Char) : Bool :=
  match extFilter with
  | none => true
  | some s => if s = ∅ then true else decide (e ∈ s)

/-- The shortlist `WHERE` clause built in `search.Search`: the stored
`filename_norm` contains the whole normalized query or some query token as a
substring (`LIKE '%x%'`), the extension conjunct holds, and `is_dir = 0`. -/
def shortPred (qNorm : List Char) (qTokens : List (List Char))
    (extFilter : Option (Finset (List Char))) (r : Row) : Bool :=
  (decide (qNorm <:+: r.filename_norm) ||
    qTokens.any (fun t => decide (t <:+: r.filename_norm))) &&
  extOk extFilter r.ext && !r.is_dir

/-- The shortlist query `SELECT ... WHERE ... ORDER BY mtime DESC LIMIT n`:
matching rows of the table, by mtime descending (stably, in rowid order on
ties), capped at `n`. -/
def shortlistRows (table : List Row) (qNorm : List Char)
    (qTokens : List (List Char)) (extFilter : Option (Finset (List Char)))
    (n : ℕ) : List Row :=
  (stableSortBy rowLT (table.filter (shortPred qNorm qTokens extFilter))).take n

/-- `search.tokenOverlapCount`: how many query tokens occur in the set of
filename tokens (duplicate filename tokens collapse into the set; each query
token occurrence is tested once). -/
def tokenOverlapCount (a b : List (List Char)) : ℕ :=
  if a = [] ∨ b = [] then 0
  else (a.filter (fun t => decide (t ∈ b.toFinset))).length

/-- The candidate score of `search.Search` (its six `score +=` steps, in
order), as a function of the precomputed query data, the stored filename and
mtime, and the current time `nowT`. -/
noncomputable def scoreOf (nowT : ℤ) (qNorm : List Char)
    (qTokens : List (List Char)) (qTri : Finset (List Char))
    (filename : List Char) (mtime : ℤ) : ℝ :=
  let fnNorm := Normalize filename
  let fnTokens := Tokenize fnNorm
  let fnTri := Trigrams fnNorm
  let s1 : ℝ := if qNorm <:+: fnNorm then 6.0 else 0
  let s2 : ℝ := 2.2 * (tokenOverlapCount qTokens fnTokens : ℝ)
  let s3 : ℝ := if qNorm <+: fnNorm then 2.5 else 0
  let s4 : ℝ := 4.0 * ((Jaccard qTri fnTri : ℚ) : ℝ)
  let ageDays : ℝ := ((max 0 (nowT - mtime) : ℤ) : ℝ) / 86400
  let s5 : ℝ := 1.5 * (1 / (1 + Real.log (1 + ageDays)))
  let s6 : ℝ := 0.15 * (1 / (1 + (fnNorm.length : ℝ) / 40))
  s1 + s2 + s3 + s4 + s5 + s6

/-- The score function `search.Search` applies to a shortlist row. -/
noncomputable def searchScoreFn (nowT : ℤ) (q : List Char) (r : Row) : ℝ :=
  scoreOf nowT (Normalize q) (Tokenize (Normalize q))
    (Trigrams (Normalize q)) r.filename r.mtime

/-- The effective result limit: non-positive `Limit` is coerced to 30. -/
def effLimit (opts : QueryOptions) : ℕ :=
  (if opts.limit ≤ 0 then 30 else opts.limit).toNat

/-- The effective shortlist size: non-positive `Shortlist` is coerced
to 800. -/
def effShortlist (opts : QueryOptions) : ℕ :=
  (if opts.shortlist ≤ 0 then 800 else opts.shortlist).toNat

/-- A shortlist row paired with its score, as `search.Search` builds its
candidate slice. -/
def mkResult {α : Type} (score : α) (r : Row) : Result α :=
  ⟨r.path, r.filename, r.ext, r.mtime, r.size, score⟩

/-- The scored candidate slice of `search.Search`: empty when the normalized
query is empty (the early `return nil, nil`), otherwise the fetched
shortlist with scores attached. -/
def scoredCandidates {α : Type} (scoreFn : Row → α) (table : List Row)
    (q : List Char) (opts : QueryOptions) : List (Result α) :=
  let qNorm := Normalize q
  if qNorm = [] then []
  else
    (shortlistRows table qNorm (Tokenize qNorm) opts.extFilter
      (effShortlist opts)).map (fun r => mkResult (scoreFn r) r)

/-- `search.Search` modulo the score function: shortlist, score, stably sort
by (mtime desc, score desc), truncate to the limit. -/
def SearchModel {α : Type} [LinearOrder α] (scoreFn : Row → α)
    (table : List Row) (q : List Char) (opts : QueryOptions) :
    List (Result α) :=
  (stableSortBy rankLT (scoredCandidates scoreFn table q opts)).take
    (effLimit opts)

/-- `search.Search` itself, over a table snapshot `table` and current Unix
time `nowT` (the `sql.DB` round trip, which cannot fail in this pure model,
is replaced by the list-level query). -/
noncomputable def Search (table : List Row) (nowT : ℤ) (q : List Char)
    (opts : QueryOptions) : List (Result ℝ) :=
  SearchModel (searchScoreFn nowT q) table q opts

/-- Sortedness under a strict comparison: no later element strictly
precedes an earlier one. -/
def sortedBy {α : Type} (lt : α → α → Prop) (l : List α) : Prop :=
  List.Pairwise (fun x y => ¬ lt y x) l

/-- The specification's Jaccard ratio (spec side of claim C3): intersection
size over union size, with the stated boundary conventions. -/
def jaccardSpec (a b : Finset (List Char)) : ℚ :=
  if a = ∅ ∧ b = ∅ then 1
  else if a = ∅ ∨ b = ∅ then 0
  else ((a ∩ b).card : ℚ) / ((a ∪ b).card : ℚ)

/-- The composite score exactly as claim C3 words it (spec side): the sum of
six terms, with the token-overlap count as a filtered count over the query
tokens and the trigram term as the set-theoretic Jaccard ratio. -/
noncomputable def specScore (nowT : ℤ) (q : List Char) (filename : List Char)
    (mtime : ℤ) : ℝ :=
  let qNorm := Normalize q
  let fnNorm := Normalize filename
  let substringTerm : ℝ := if qNorm <:+: fnNorm then 6.0 else 0
  let overlapTerm : ℝ := 2.2 *
    (((Tokenize qNorm).filter (fun t => decide (t ∈ Tokenize fnNorm))).length : ℝ)
  let startTerm : ℝ := if qNorm <+: fnNorm then 2.5 else 0
  let trigramTerm : ℝ :=
    4.0 * ((jaccardSpec (Trigrams qNorm) (Trigrams fnNorm) : ℚ) : ℝ)
  let ageDays : ℝ := ((max 0 (nowT - mtime) : ℤ) : ℝ) / 86400
  let recencyTerm : ℝ := 1.5 * (1 / (1 + Real.log (1 + ageDays)))
  let lengthTerm : ℝ := 0.15 * (1 / (1 + (fnNorm.length : ℝ) / 40))
  substringTerm + overlapTerm + startTerm + trigramTerm + recencyTerm +
    lengthTerm

/-! ## internal/indexer/indexer.go -/

/-- What `d.Info()` reports for a file entry. -/
structure FileMeta where
  mtime : ℤ
  size : ℤ
  symlink : Bool
deriving DecidableEq, Repr

mutual
/-- A filesystem subtree as `filepath.WalkDir` traverses it: each node
carries its basename (`d.Name()`); a directory holds its entries in the
order the walk visits them (lexical in Go). -/
inductive FSTree where
  | file (name : List Char) (meta : FileMeta)
  | dir (name : List Char) (children : FSForest)
inductive FSForest where
  | nil
  | cons (t : FSTree) (ts : FSForest)
end

/-- The basename of a tree node. -/
def nameOf : FSTree → List Char
  | .file n _ => n
  | .dir n _ => n

/-- `filepath.Join` for a clean directory path and an entry name (joining
onto `"."` drops the leading `"./"`, as `filepath.Join` cleans it away). -/
def joinPath (p : List Char) (name : List Char) : List Char :=
  if p = ['.'] then name else p ++ '/' :: name

/-- `indexer.Options` minus the root list and advisory batch size (the roots
are data of a pass; `BatchSize` never influences behaviour in
`indexer.Run`). -/
structure IndexOptions where
  includeHidden : Bool
  followSymlinks : Bool
  ignoreDirs : List (List Char)
  onlyExtensions : Option (Finset (List Char))
deriving DecidableEq

/-- `indexer.DefaultIgnoreDirs`. -/
def DefaultIgnoreDirs : List (List Char) :=
  [".git", "node_modules", "Library", "Caches", ".Trash", ".Trash-1000",
    ".DS_Store"].map String.toList

/-- `strings.HasPrefix name "."`. -/
def dotted (name : List Char) : Bool := ['.'].isPrefixOf name

/-- One observation of a file during a walk: the joined path, the basename
and the stat metadata — the data `walkFn` feeds into the upsert. -/
structure ObsFile where
  path : List Char
  name : List Char
  meta : FileMeta
deriving DecidableEq, Repr

/-- The extension allow-set test in `walkFn`
(`opts.OnlyExtensions != nil && len(opts.OnlyExtensions) > 0`). -/
def onlyExtOk (onlyExtensions : Option (Finset (List Char)))
    (e : List Char) : Bool :=
  match onlyExtensions with
  | none => true
  | some s => if s = ∅ then true else decide (e ∈ s)

mutual
/-- `filepath.WalkDir root walkFn` with `indexer.Run`'s `walkFn`, collecting
the observations that reach the upsert.  `path` is the joined path of the
node being visited (for the root call: the cleaned root itself, whose
basename the root node's `name` must equal).  Directories: ignore-set
basenames prune the subtree, and with `IncludeHidden` false a dot basename
prunes it too unless the visited path is exactly `"."`.  Files: dot
basenames are skipped, then the extension filter, then the symlink
policy. -/
def walkTree (opts : IndexOptions) (path : List Char) : FSTree → List ObsFile
  | .file name meta =>
    if !opts.includeHidden && dotted name then []
    else if !onlyExtOk opts.onlyExtensions (ExtLower name) then []
    else if meta.symlink && !opts.followSymlinks then []
    else [⟨path, name, meta⟩]
  | .dir name children =>
    if opts.ignoreDirs.contains name then []
    else if !opts.includeHidden && dotted name && path ≠ ['.'] then []
    else walkForest opts path children
def walkForest (opts : IndexOptions) (dirPath : List Char) :
    FSForest → List ObsFile
  | .nil => []
  | .cons t ts =>
    walkTree opts (joinPath dirPath (nameOf t)) t ++ walkForest opts dirPath ts
end

/-- The row the upsert statement writes for one observation in generation
`gen` (`path, name, Normalize name, ExtLower name, mtime, size, 0, gen`). -/
def obsToRow (gen : ℤ) (o : ObsFile) : Row :=
  ⟨o.path, o.name, Normalize o.name, ExtLower o.name, o.meta.mtime,
    o.meta.size, false, gen⟩

/-- `INSERT ... ON CONFLICT(path) DO UPDATE`: a conflicting row is replaced
in place (its rowid, hence its position, is kept); otherwise the row is
appended. -/
def upsert (cat : List Row) (r : Row) : List Row :=
  if cat.any (fun x => x.path = r.path) then
    cat.map (fun x => if x.path = r.path then r else x)
  else cat ++ [r]

/-- `DELETE FROM files WHERE seen_gen <> gen`. -/
def sweep (gen : ℤ) (cat : List Row) : List Row :=
  cat.filter (fun r => r.seen_gen = gen)

/-- One reconciliation pass over an already-walked observation list: all the
upserts of the pass in order, then the sweep — the write sequence of
`indexer.Run` against a catalog snapshot. -/
def applyPass (cat : List Row) (gen : ℤ) (obs : List ObsFile) : List Row :=
  sweep gen (obs.foldl (fun c o => upsert c (obsToRow gen o)) cat)

/-- One configured root for a pass: its cleaned, home-expanded path, and
`none` when `os.Stat` fails on it (the root is unavailable). -/
structure RootFS where
  path : List Char
  tree : Option FSTree

/-- `indexer.Run`: error when no roots are configured; otherwise walk the
available roots (unavailable ones are skipped with only a stderr warning),
upsert every observation stamped with `gen`, sweep every row of another
generation, and return the number of upserts together with the committed
catalog. -/
def RunModel (opts : IndexOptions) (roots : List RootFS) (cat : List Row)
    (gen : ℤ) : Except (List Char) (ℤ × List Row) :=
  if roots.isEmpty then .error ("no roots provided".toList)
  else
    let obs := roots.foldl
      (fun acc root =>
        match root.tree with
        | none => acc
        | some t => acc ++ walkTree opts root.path t) []
    .ok ((obs.length : ℤ), applyPass cat gen obs)

/-! ## Theorems -/

/-- C10: `Jaccard` is symmetric, including the boundary cases where either
or both argument sets are empty. -/
theorem Jaccard_symm (a b : Finset (List Char)) : Jaccard a b = Jaccard b a := by
  by_cases ha : a.card = 0 <;> by_cases hb : b.card = 0 <;>
    simp [Jaccard, ha, hb, Finset.inter_comm a b, Nat.add_comm a.card b.card]

theorem trigrams_short (s : List Char)
    (h : (s.filter (fun c => c != ' ')).length < 3) :
    Trigrams s = {s.filter (fun c => c != ' ')} := by
  simp [Trigrams, h]

theorem trigrams_window (s : List Char)
    (h : 3 ≤ (s.filter (fun c => c != ' ')).length) (w : List Char) :
    w ∈ Trigrams s ↔
      w.length = 3 ∧ w <:+: s.filter (fun c => c != ' ') := by
  set t := s.filter (fun c => c != ' ') with ht
  have hlt : ¬ t.length < 3 := not_lt.mpr h
  simp only [Trigrams, ← ht, if_neg hlt, List.mem_toFinset, List.mem_map,
    List.mem_range]
  constructor
  · rintro ⟨i, hi, rfl⟩
    have hdrop : 3 ≤ (t.drop i).length := by
      rw [List.length_drop]; omega
    refine ⟨?_, ?_⟩
    · rw [List.length_take]; omega
    · exact ((List.take_prefix _ _).isInfix).trans
        ((List.drop_suffix _ _).isInfix)
  · rintro ⟨hw3, u, v, huv⟩
    have hlen : t.length = u.length + w.length + v.length := by
      rw [← huv]; simp; omega
    refine ⟨u.length, by omega, ?_⟩
    have hdrop : t.drop u.length = w ++ v := by
      rw [← huv, List.append_assoc, List.drop_left]
    rw [hdrop, ← hw3, List.take_left]

/-- C6: `Trigrams` strips all spaces; a stripped string shorter than 3
characters yields the one-element set of that whole string, and otherwise
the result is exactly the set of contiguous 3-character windows of the
stripped string (that is, its length-3 infixes), duplicates collapsed. -/
theorem trigrams_spec (s : List Char) :
    ((s.filter (fun c => c != ' ')).length < 3 →
      Trigrams s = {s.filter (fun c => c != ' ')}) ∧
    (3 ≤ (s.filter (fun c => c != ' ')).length →
      ∀ w, w ∈ Trigrams s ↔
        w.length = 3 ∧ w <:+: s.filter (fun c => c != ' ')) :=
  ⟨trigrams_short s, trigrams_window s⟩

/-- Witness for C6 at concrete inputs. -/
theorem trigrams_spec_witness :
    Trigrams ['a', 'b'] = {['a', 'b']} ∧
      (['b', 'c', 'd'] ∈ Trigrams ['a', 'b', 'c', 'd'] ↔
        (['b', 'c', 'd'] : List Char).length = 3 ∧
          ['b', 'c', 'd'] <:+:
            (['a', 'b', 'c', 'd'] : List Char).filter (fun c => c != ' ')) :=
  ⟨(trigrams_spec ['a', 'b']).1 (by decide),
    (trigrams_spec ['a', 'b', 'c', 'd']).2 (by decide) ['b', 'c', 'd']⟩

theorem tokenOverlapCount_eq (a b : List (List Char)) :
    tokenOverlapCount a b = (a.filter (fun t => decide (t ∈ b))).length := by
  unfold tokenOverlapCount
  by_cases ha : a = []
  · simp [ha]
  · by_cases hb : b = []
    · simp [hb]
    · simp [ha, hb]

theorem Jaccard_eq_jaccardSpec (a b : Finset (List Char)) :
    Jaccard a b = jaccardSpec a b := by
  unfold Jaccard jaccardSpec
  by_cases ha : a = ∅
  · by_cases hb : b = ∅ <;> simp [ha, hb]
  · by_cases hb : b = ∅
    · simp [ha, hb, Finset.card_eq_zero]
    · have hca : a.card ≠ 0 := by simp [Finset.card_eq_zero, ha]
      have hcb : b.card ≠ 0 := by simp [Finset.card_eq_zero, hb]
      have hunion : a.card + b.card - (a ∩ b).card = (a ∪ b).card := by
        have := Finset.card_union_add_card_inter a b
        omega
      have hupos : (a ∪ b).card ≠ 0 := by
        have : a.card ≤ (a ∪ b).card := Finset.card_le_card Finset.subset_union_left
        omega
      simp only [if_neg (by tauto : ¬(a.card = 0 ∧ b.card = 0)),
        if_neg (by tauto : ¬(a.card = 0 ∨ b.card = 0)),
        if_neg (by tauto : ¬(a = ∅ ∧ b = ∅)),
        if_neg (by tauto : ¬(a = ∅ ∨ b = ∅)), hunion,
        if_neg hupos]

/-- C3: the candidate score `search.Search` computes equals the sum of the
six terms of the specification: +6.0 for a substring match of the normalized
query in the normalized filename, +2.2 per query token found among the
filename's tokens (each query-token occurrence counted at most once
regardless of filename-token multiplicity), +2.5 for a prefix match,
+4.0 times the Jaccard similarity of the trigram sets, +1.5 times
1/(1 + ln(1 + ageDays)) with ageDays = max(0, now − mtime)/86400, and
+0.15 times 1/(1 + len(normalized filename)/40). -/
theorem score_formula (nowT : ℤ) (q : List Char) (r : Row) :
    searchScoreFn nowT q r = specScore nowT q r.filename r.mtime := by
  unfold searchScoreFn scoreOf specScore
  simp only [tokenOverlapCount_eq, Jaccard_eq_jaccardSpec]

/-- C7: a query whose normalization is empty makes `Search` return the
empty result list (and, in the source, a nil error), whatever the table and
options. -/
theorem search_empty_query (table : List Row) (nowT : ℤ) (q : List Char)
    (opts : QueryOptions) (h : Normalize q = []) :
    Search table nowT q opts = [] := by
  simp [Search, SearchModel, scoredCandidates, h, stableSortBy]

/-- Witness for C7: a one-space query over a nonempty table. -/
theorem search_empty_query_witness :
    Normalize [' '] = [] ∧
      Search [⟨['/', 'a'], ['a'], ['a'], [], 5, 1, false, 1⟩] 0 [' ']
        DefaultQueryOptions = [] :=
  ⟨by decide,
    search_empty_query [⟨['/', 'a'], ['a'], ['a'], [], 5, 1, false, 1⟩] 0
      [' '] DefaultQueryOptions (by decide)⟩

/-! ### Stable sort lemmas -/

theorem insertStable_split {α : Type} (lt : α → α → Prop) [DecidableRel lt]
    (a : α) (l : List α) :
    ∃ n, insertStable lt a l = l.take n ++ a :: l.drop n ∧
      (∀ b ∈ l.take n, ¬ lt a b) ∧
      (∀ c, (l.drop n).head? = some c → lt a c) := by
  induction l with
  | nil => exact ⟨0, rfl, by simp, by simp⟩
  | cons b l ih =>
    by_cases h : lt a b
    · refine ⟨0, by simp [insertStable, h], by simp, ?_⟩
      intro c hc
      have hbc : b = c := by simpa using hc
      exact hbc ▸ h
    · obtain ⟨n, heq, htake, hhead⟩ := ih
      refine ⟨n + 1, ?_, ?_, ?_⟩
      · simp [insertStable, h, heq]
      · intro c hc
        rw [List.take_succ_cons] at hc
        rcases List.mem_cons.mp hc with rfl | hc2
        · exact h
        · exact htake c hc2
      · intro c hc
        rw [List.drop_succ_cons] at hc
        exact hhead c hc

theorem insertStable_perm {α : Type} (lt : α → α → Prop) [DecidableRel lt]
    (a : α) (l : List α) : (insertStable lt a l).Perm (a :: l) := by
  obtain ⟨n, heq, -, -⟩ := insertStable_split lt a l
  rw [heq]
  have := @List.perm_middle _ a (l.take n) (l.drop n)
  rwa [List.take_append_drop] at this

theorem stableSortBy_perm_aux {α : Type} (lt : α → α → Prop) [DecidableRel lt]
    (l acc : List α) :
    (l.foldl (fun acc a => insertStable lt a acc) acc).Perm (acc ++ l) := by
  induction l generalizing acc with
  | nil => simp
  | cons a l ih =>
    rw [List.foldl_cons]
    refine (ih (insertStable lt a acc)).trans ?_
    refine (((insertStable_perm lt a acc).append_right l).trans ?_)
    exact List.perm_middle.symm.trans (by simp)

theorem stableSortBy_perm {α : Type} (lt : α → α → Prop) [DecidableRel lt]
    (l : List α) : (stableSortBy lt l).Perm l := by
  simpa [stableSortBy] using stableSortBy_perm_aux lt l []

theorem mem_stableSortBy {α : Type} (lt : α → α → Prop) [DecidableRel lt]
    {a : α} {l : List α} : a ∈ stableSortBy lt l ↔ a ∈ l :=
  (stableSortBy_perm lt l).mem_iff

theorem insertStable_sorted {α : Type} (lt : α → α → Prop) [DecidableRel lt]
    (T : ∀ x y z, lt x y → lt y z → lt x z) (A : ∀ x y, lt x y → ¬ lt y x)
    (a : α) (l : List α) (h : sortedBy lt l) :
    sortedBy lt (insertStable lt a l) := by
  obtain ⟨n, heq, htake, hhead⟩ := insertStable_split lt a l
  rw [heq]
  have hsplit : l = l.take n ++ l.drop n := (List.take_append_drop n l).symm
  have hpw : List.Pairwise (fun x y => ¬ lt y x) (l.take n ++ l.drop n) := by
    rw [← hsplit]; exact h
  rw [List.pairwise_append] at hpw
  obtain ⟨hp1, hp2, hcross⟩ := hpw
  rw [sortedBy, List.pairwise_append]
  refine ⟨hp1, ?_, ?_⟩
  · rw [List.pairwise_cons]
    refine ⟨?_, hp2⟩
    intro y hy
    cases hd : l.drop n with
    | nil => rw [hd] at hy; simp at hy
    | cons c rest =>
      have hac : lt a c := hhead c (by rw [hd]; rfl)
      rw [hd] at hy hp2
      rcases List.mem_cons.mp hy with rfl | hy
      · exact A a y hac
      · intro hya
        have : ¬ lt y c := (List.pairwise_cons.mp hp2).1 y hy
        exact this (T y a c hya hac)
  · intro x hx y hy
    rcases List.mem_cons.mp hy with rfl | hy
    · exact htake x hx
    · exact hcross x hx y hy

theorem stableSortBy_sorted_aux {α : Type} (lt : α → α → Prop)
    [DecidableRel lt] (T : ∀ x y z, lt x y → lt y z → lt x z)
    (A : ∀ x y, lt x y → ¬ lt y x) (l acc : List α) (hacc : sortedBy lt acc) :
    sortedBy lt (l.foldl (fun acc a => insertStable lt a acc) acc) := by
  induction l generalizing acc with
  | nil => exact hacc
  | cons a l ih =>
    rw [List.foldl_cons]
    exact ih _ (insertStable_sorted lt T A a acc hacc)

theorem stableSortBy_sorted {α : Type} (lt : α → α → Prop) [DecidableRel lt]
    (T : ∀ x y z, lt x y → lt y z → lt x z) (A : ∀ x y, lt x y → ¬ lt y x)
    (l : List α) : sortedBy lt (stableSortBy lt l) :=
  stableSortBy_sorted_aux lt T A l [] List.Pairwise.nil

theorem insertStable_filter_key {α : Type} (lt : α → α → Prop)
    [DecidableRel lt] (p : α → Bool)
    (keyCong : ∀ x y, p x = true → p y = true → ∀ z, (lt x z ↔ lt y z))
    (I : ∀ x, ¬ lt x x) (a : α) (l : List α) (h : sortedBy lt l) :
    (insertStable lt a l).filter p =
      if p a then l.filter p ++ [a] else l.filter p := by
  obtain ⟨n, heq, htake, hhead⟩ := insertStable_split lt a l
  have hsplit : l.filter p = (l.take n).filter p ++ (l.drop n).filter p := by
    conv_lhs => rw [← List.take_append_drop n l]
    exact List.filter_append _ _
  rw [heq, List.filter_append, List.filter_cons]
  by_cases hpa : p a = true
  · rw [if_pos hpa, if_pos hpa]
    have hdrop : (l.drop n).filter p = [] := by
      rw [List.filter_eq_nil_iff]
      intro x hx hpx
      cases hd : l.drop n with
      | nil => rw [hd] at hx; simp at hx
      | cons c rest =>
        have hac : lt a c := hhead c (by rw [hd]; rfl)
        have hxc : lt x c := (keyCong x a hpx hpa c).mpr hac
        rw [hd] at hx
        have hp2 : List.Pairwise (fun x y => ¬ lt y x) (c :: rest) := by
          refine List.Pairwise.sublist ?_ h
          rw [← hd]
          exact List.drop_sublist n l
        rcases List.mem_cons.mp hx with rfl | hx
        · exact I x hxc
        · exact (List.pairwise_cons.mp hp2).1 x hx hxc
    rw [hsplit, hdrop]
    simp
  · rw [if_neg hpa, if_neg (by simpa using hpa), hsplit]

theorem stableSortBy_filter_key_aux {α : Type} (lt : α → α → Prop)
    [DecidableRel lt] (p : α → Bool)
    (T : ∀ x y z, lt x y → lt y z → lt x z) (A : ∀ x y, lt x y → ¬ lt y x)
    (keyCong : ∀ x y, p x = true → p y = true → ∀ z, (lt x z ↔ lt y z))
    (I : ∀ x, ¬ lt x x) (l acc : List α) (hacc : sortedBy lt acc) :
    (l.foldl (fun acc a => insertStable lt a acc) acc).filter p =
      acc.filter p ++ l.filter p := by
  induction l generalizing acc with
  | nil => simp
  | cons a l ih =>
    rw [List.foldl_cons, ih _ (insertStable_sorted lt T A a acc hacc),
      insertStable_filter_key lt p keyCong I a acc hacc, List.filter_cons]
    by_cases hpa : p a = true
    · simp [hpa]
    · simp [hpa]

theorem stableSortBy_filter_key {α : Type} (lt : α → α → Prop)
    [DecidableRel lt] (p : α → Bool)
    (T : ∀ x y z, lt x y → lt y z → lt x z) (A : ∀ x y, lt x y → ¬ lt y x)
    (keyCong : ∀ x y, p x = true → p y = true → ∀ z, (lt x z ↔ lt y z))
    (I : ∀ x, ¬ lt x x) (l : List α) :
    (stableSortBy lt l).filter p = l.filter p := by
  simpa [stableSortBy] using
    stableSortBy_filter_key_aux lt p T A keyCong I l [] List.Pairwise.nil

theorem rankLT_trans {α : Type} [LinearOrder α] :
    ∀ x y z : Result α, rankLT x y → rankLT y z → rankLT x z := by
  intro x y z h1 h2
  rcases h1 with h1 | ⟨e1, s1⟩ <;> rcases h2 with h2 | ⟨e2, s2⟩
  · exact Or.inl (h2.trans h1)
  · exact Or.inl (e2 ▸ h1)
  · exact Or.inl (e1 ▸ h2)
  · exact Or.inr ⟨e1.trans e2, s2.trans s1⟩

theorem rankLT_asymm {α : Type} [LinearOrder α] :
    ∀ x y : Result α, rankLT x y → ¬ rankLT y x := by
  intro x y h1 h2
  rcases h1 with h1 | ⟨e1, s1⟩ <;> rcases h2 with h2 | ⟨e2, s2⟩
  · exact absurd h1 (lt_asymm h2)
  · exact absurd h1 (e2 ▸ lt_irrefl _)
  · exact absurd h2 (e1 ▸ lt_irrefl _)
  · exact absurd s1 (lt_asymm s2)

theorem rankLT_irrefl {α : Type} [LinearOrder α] :
    ∀ x : Result α, ¬ rankLT x x := by
  intro x h
  rcases h with h | ⟨-, h⟩ <;> exact lt_irrefl _ h

theorem rankLT_keyCong {α : Type} [LinearOrder α] (m : ℤ) (s : α) :
    ∀ x y : Result α,
      (decide (x.mtime = m ∧ x.score = s)) = true →
      (decide (y.mtime = m ∧ y.score = s)) = true →
      ∀ z, (rankLT x z ↔ rankLT y z) := by
  intro x y hx hy z
  rw [decide_eq_true_eq] at hx hy
  unfold rankLT
  rw [hx.1, hx.2, hy.1, hy.2]

/-- C1: `Search` equals the stable (mtime desc, score desc) sort of its
scored candidate slice truncated to the effective limit; the sorted sequence
is a permutation of the candidates, pairwise ordered so that a later result
never has a strictly newer mtime nor — on equal mtimes — a strictly larger
score (so two results with different mtimes are never reordered by score
alone), ties on the full (mtime, score) key keep the candidates' shortlist
order, and the result never exceeds the limit. -/
theorem search_order (table : List Row) (nowT : ℤ) (q : List Char)
    (opts : QueryOptions) :
    Search table nowT q opts =
      (stableSortBy rankLT
        (scoredCandidates (searchScoreFn nowT q) table q opts)).take
        (effLimit opts) ∧
    (stableSortBy rankLT
      (scoredCandidates (searchScoreFn nowT q) table q opts)).Perm
      (scoredCandidates (searchScoreFn nowT q) table q opts) ∧
    List.Pairwise
      (fun a b : Result ℝ =>
        b.mtime < a.mtime ∨ (a.mtime = b.mtime ∧ b.score ≤ a.score))
      (stableSortBy rankLT
        (scoredCandidates (searchScoreFn nowT q) table q opts)) ∧
    (∀ m : ℤ, ∀ s : ℝ,
      (stableSortBy rankLT
        (scoredCandidates (searchScoreFn nowT q) table q opts)).filter
        (fun r => decide (r.mtime = m ∧ r.score = s)) =
      (scoredCandidates (searchScoreFn nowT q) table q opts).filter
        (fun r => decide (r.mtime = m ∧ r.score = s))) ∧
    (Search table nowT q opts).length ≤ effLimit opts := by
  refine ⟨rfl, stableSortBy_perm _ _, ?_, ?_, ?_⟩
  · have := stableSortBy_sorted (rankLT (α := ℝ)) rankLT_trans rankLT_asymm
      (scoredCandidates (searchScoreFn nowT q) table q opts)
    refine List.Pairwise.imp ?_ this
    intro a b hnab
    unfold rankLT at hnab
    push_neg at hnab
    rcases lt_trichotomy a.mtime b.mtime with hm | hm | hm
    · exact absurd hm (not_lt.mpr hnab.1)
    · exact Or.inr ⟨hm, hnab.2 hm.symm⟩
    · exact Or.inl hm
  · intro m s
    exact stableSortBy_filter_key (rankLT (α := ℝ)) _ rankLT_trans rankLT_asymm
      (rankLT_keyCong m s) rankLT_irrefl _
  · exact List.length_take_le _ _

/-- C8: with a non-empty extension allow-set supplied, every result of
`Search` has its `ext` field in the allow-set. -/
theorem search_ext_filter (table : List Row) (nowT : ℤ) (q : List Char)
    (opts : QueryOptions) (s : Finset (List Char))
    (hf : opts.extFilter = some s) (hne : s ≠ ∅) :
    ∀ r ∈ Search table nowT q opts, r.ext ∈ s := by
  intro r hr
  have h1 : r ∈ stableSortBy rankLT
      (scoredCandidates (searchScoreFn nowT q) table q opts) :=
    List.take_subset _ _ hr
  have h2 : r ∈ scoredCandidates (searchScoreFn nowT q) table q opts :=
    (mem_stableSortBy _).mp h1
  unfold scoredCandidates at h2
  by_cases hq : Normalize q = []
  · simp [hq] at h2
  · simp only [hq, if_neg, ite_false] at h2
    obtain ⟨row, hrow, rfl⟩ := List.mem_map.mp h2
    have h3 : row ∈ stableSortBy rowLT
        (table.filter
          (shortPred (Normalize q) (Tokenize (Normalize q)) opts.extFilter)) :=
      List.take_subset _ _ hrow
    have h4 : row ∈ table.filter
        (shortPred (Normalize q) (Tokenize (Normalize q)) opts.extFilter) :=
      (mem_stableSortBy _).mp h3
    have h5 := (List.mem_filter.mp h4).2
    unfold shortPred at h5
    rw [Bool.and_assoc, Bool.and_eq_true, Bool.and_eq_true] at h5
    have h6 := h5.2.1
    rw [hf] at h6
    simp only [extOk] at h6
    rw [if_neg hne] at h6
    exact of_decide_eq_true h6

/-- Witness for C8: a pdf-only allow-set over a two-row table. -/
theorem search_ext_filter_witness :
    ((⟨30, some {['p', 'd', 'f']}, 800⟩ : QueryOptions).extFilter
        = some ({['p', 'd', 'f']} : Finset (List Char))) ∧
      (∀ r ∈ Search
          [⟨['/', 'a'], ['a'], ['a'], ['p', 'd', 'f'], 5, 1, false, 1⟩,
            ⟨['/', 'b'], ['a'], ['a'], ['t', 'x', 't'], 9, 1, false, 1⟩]
          0 ['a'] ⟨30, some {['p', 'd', 'f']}, 800⟩,
        r.ext ∈ ({['p', 'd', 'f']} : Finset (List Char))) :=
  ⟨rfl,
    search_ext_filter
      [⟨['/', 'a'], ['a'], ['a'], ['p', 'd', 'f'], 5, 1, false, 1⟩,
        ⟨['/', 'b'], ['a'], ['a'], ['t', 'x', 't'], 9, 1, false, 1⟩]
      0 ['a'] ⟨30, some {['p', 'd', 'f']}, 800⟩ {['p', 'd', 'f']} rfl
      (by decide)⟩

/-! ### Reconciliation lemmas -/

theorem upsert_gen_paths (g : ℤ) (cat : List Row) (r : Row)
    (hg : r.seen_gen = g) :
    (((upsert cat r).filter (fun x => x.seen_gen = g)).map Row.path).toFinset =
      ((cat.filter (fun x => x.seen_gen = g)).map Row.path).toFinset ∪
        {r.path} := by
  unfold upsert
  by_cases hc : cat.any (fun x => x.path = r.path) = true
  · rw [if_pos hc]
    obtain ⟨x0, hx0, hx0p⟩ := List.any_eq_true.mp hc
    have hx0q : x0.path = r.path := of_decide_eq_true hx0p
    ext p
    simp only [List.mem_toFinset, List.mem_map, List.mem_filter,
      Finset.mem_union, Finset.mem_singleton, decide_eq_true_eq]
    constructor
    · rintro ⟨y, ⟨⟨x, hx, rfl⟩, hyg⟩, rfl⟩
      by_cases hxp : x.path = r.path
      · exact Or.inr (by rw [if_pos hxp])
      · rw [if_neg hxp] at hyg ⊢
        exact Or.inl ⟨x, ⟨hx, hyg⟩, rfl⟩
    · rintro (⟨x, ⟨hx, hxg⟩, rfl⟩ | rfl)
      · by_cases hxp : x.path = r.path
        · exact ⟨r, ⟨⟨x, hx, by rw [if_pos hxp]⟩, hg⟩, hxp.symm⟩
        · exact ⟨x, ⟨⟨x, hx, by rw [if_neg hxp]⟩, hxg⟩, rfl⟩
      · exact ⟨r, ⟨⟨x0, hx0, by rw [if_pos hx0q]⟩, hg⟩, rfl⟩
  · rw [if_neg hc]
    rw [List.filter_append, List.map_append, List.toFinset_append]
    simp [hg]

theorem upserts_gen_paths (g : ℤ) (obs : List ObsFile) :
    ∀ cat : List Row,
      (((obs.foldl (fun c o => upsert c (obsToRow g o)) cat).filter
          (fun x => x.seen_gen = g)).map Row.path).toFinset =
        ((cat.filter (fun x => x.seen_gen = g)).map Row.path).toFinset ∪
          (obs.map ObsFile.path).toFinset := by
  induction obs with
  | nil => intro cat; simp
  | cons o obs ih =>
    intro cat
    rw [List.foldl_cons, ih, upsert_gen_paths g cat (obsToRow g o) rfl]
    simp only [List.map_cons, List.toFinset_cons]
    rw [Finset.union_assoc]
    congr 1

/-- C2: after a reconciliation pass with a fresh generation `g` commits
(every pre-existing row carries a different generation, as the
monotonically increasing generation ids guarantee), every remaining row has
`seen_gen = g`, the rows carrying `seen_gen = g` are exactly the distinct
paths upserted during the pass, and every pre-existing row whose path was
not observed has been deleted. -/
theorem pass_generation_exact (cat : List Row) (g : ℤ) (obs : List ObsFile)
    (hfresh : ∀ r ∈ cat, r.seen_gen ≠ g) :
    (∀ r ∈ applyPass cat g obs, r.seen_gen = g) ∧
    ((applyPass cat g obs).map Row.path).toFinset =
      (obs.map ObsFile.path).toFinset ∧
    (∀ r ∈ cat, r.path ∉ obs.map ObsFile.path →
      r.path ∉ (applyPass cat g obs).map Row.path) := by
  have hmain : ((applyPass cat g obs).map Row.path).toFinset =
      (obs.map ObsFile.path).toFinset := by
    unfold applyPass sweep
    rw [upserts_gen_paths g obs cat]
    have hnil : cat.filter (fun x => x.seen_gen = g) = [] := by
      rw [List.filter_eq_nil_iff]
      intro x hx
      simpa using hfresh x hx
    rw [hnil]
    simp
  refine ⟨?_, hmain, ?_⟩
  · intro r hr
    unfold applyPass sweep at hr
    simpa using (List.mem_filter.mp hr).2
  · intro r hr hobs hmem
    have : r.path ∈ (obs.map ObsFile.path).toFinset := by
      rw [← hmain]
      exact List.mem_toFinset.mpr hmem
    exact hobs (List.mem_toFinset.mp this)

/-- Witness for C2: one stale row of generation 1, one observation, pass
generation 2. -/
theorem pass_generation_exact_witness :
    (∀ r ∈ ([⟨['/', 'o'], ['o'], ['o'], [], 1, 1, false, 1⟩] : List Row),
      r.seen_gen ≠ 2) ∧
    ((applyPass [⟨['/', 'o'], ['o'], ['o'], [], 1, 1, false, 1⟩] 2
        [⟨['/', 'a'], ['a'], ⟨5, 3, false⟩⟩]).map Row.path).toFinset =
      (([⟨['/', 'a'], ['a'], ⟨5, 3, false⟩⟩] : List ObsFile).map
        ObsFile.path).toFinset :=
  ⟨by decide,
    (pass_generation_exact [⟨['/', 'o'], ['o'], ['o'], [], 1, 1, false, 1⟩] 2
      [⟨['/', 'a'], ['a'], ⟨5, 3, false⟩⟩] (by decide)).2.1⟩

/-- C4 counterexample: with its single root unavailable, `indexer.Run`
returns a nil error and count 0 and still commits — sweeping away the
pre-existing rows — and its return value is identical to that of a pass
over an available but empty root, so the all-roots-failed condition is not
observable from the return value.  (The claim asserts the pass fails or at
least distinguishably signals the condition instead of committing as an
apparently successful pass.) -/
theorem allroots_failed_counterexample :
    RunModel ⟨false, false, DefaultIgnoreDirs, none⟩
        [⟨('/' :: ['g', 'o', 'n', 'e']), none⟩]
        [⟨['/', 'o'], ['o'], ['o'], [], 1, 1, false, 1⟩] 2 =
      Except.ok ((0 : ℤ), ([] : List Row)) ∧
    RunModel ⟨false, false, DefaultIgnoreDirs, none⟩
        [⟨['/', 'r'], some (FSTree.dir ['r'] FSForest.nil)⟩]
        [⟨['/', 'o'], ['o'], ['o'], [], 1, 1, false, 1⟩] 2 =
      Except.ok ((0 : ℤ), ([] : List Row)) := by
  constructor <;> rfl

theorem walk_none_roots (opts : IndexOptions) :
    ∀ (roots : List RootFS) (acc : List ObsFile),
      (∀ root ∈ roots, root.tree = none) →
      roots.foldl
        (fun acc root =>
          match root.tree with
          | none => acc
          | some t => acc ++ walkTree opts root.path t) acc = acc := by
  intro roots
  induction roots with
  | nil => intro acc _; rfl
  | cons r rs ih =>
    intro acc hall
    rw [List.foldl_cons]
    have hr : r.tree = none := hall r (List.mem_cons_self r rs)
    rw [hr]
    exact ih acc (fun root hroot => hall root (List.mem_cons_of_mem r hroot))

/-- C4 amended: when every configured root is unavailable, `indexer.Run`
does not fail — it returns count 0 with a nil error and still executes the
sweep, leaving only the rows that already carried the pass's generation
(none, under the monotone generation discipline).  The only caller-visible
signals are the zero count (never a misleading positive count) and per-root
stderr warnings outside the return contract; the return value itself is
the same as that of a successful pass over available-but-empty roots. -/
theorem allroots_failed_amended (opts : IndexOptions) (roots : List RootFS)
    (cat : List Row) (g : ℤ) (hne : roots ≠ [])
    (hall : ∀ root ∈ roots, root.tree = none) :
    RunModel opts roots cat g =
      Except.ok ((0 : ℤ), cat.filter (fun r => r.seen_gen = g)) := by
  unfold RunModel
  cases roots with
  | nil => exact absurd rfl hne
  | cons r rs =>
    rw [if_neg (by simp)]
    rw [walk_none_roots opts (r :: rs) [] hall]
    simp [applyPass, sweep]

/-- Witness for C4's amended claim: two unavailable roots over a one-row
catalog. -/
theorem allroots_failed_amended_witness :
    RunModel ⟨false, false, DefaultIgnoreDirs, none⟩
        [⟨['/', 'x'], none⟩, ⟨['/', 'y'], none⟩]
        [⟨['/', 'o'], ['o'], ['o'], [], 1, 1, false, 1⟩] 2 =
      Except.ok ((0 : ℤ),
        ([⟨['/', 'o'], ['o'], ['o'], [], 1, 1, false, 1⟩] : List Row).filter
          (fun r => r.seen_gen = 2)) :=
  allroots_failed_amended ⟨false, false, DefaultIgnoreDirs, none⟩
    [⟨['/', 'x'], none⟩, ⟨['/', 'y'], none⟩]
    [⟨['/', 'o'], ['o'], ['o'], [], 1, 1, false, 1⟩] 2 (by simp)
    (by simp)

/-- C5 counterexample: a traversal root whose basename starts with a dot
and whose path is not `"."` is pruned together with its entire subtree when
`IncludeHidden` is false — the regular file inside it is never observed —
whereas with `IncludeHidden` true the same walk observes it (so the pruning
is the hidden-exclusion rule, not any other filter).  The claim asserts the
traversal root is exempt from hidden exclusion. -/
theorem hidden_root_counterexample :
    walkTree ⟨false, false, DefaultIgnoreDirs, none⟩
        ('/' :: 'r' :: '/' :: ['.', 'c', 'f', 'g'])
        (FSTree.dir ['.', 'c', 'f', 'g']
          (FSForest.cons (FSTree.file ['a', '.', 't', 'x', 't'] ⟨5, 1, false⟩)
            FSForest.nil)) = [] ∧
    walkTree ⟨true, false, DefaultIgnoreDirs, none⟩
        ('/' :: 'r' :: '/' :: ['.', 'c', 'f', 'g'])
        (FSTree.dir ['.', 'c', 'f', 'g']
          (FSForest.cons (FSTree.file ['a', '.', 't', 'x', 't'] ⟨5, 1, false⟩)
            FSForest.nil)) =
      [⟨'/' :: 'r' :: '/' :: ['.', 'c', 'f', 'g'] ++ '/' :: ['a', '.', 't', 'x', 't'],
        ['a', '.', 't', 'x', 't'], ⟨5, 1, false⟩⟩] := by
  constructor <;> rfl

mutual
theorem walkTree_no_dotted (opts : IndexOptions)
    (h : opts.includeHidden = false) (path : List Char) :
    (t : FSTree) → ∀ o ∈ walkTree opts path t, dotted o.name = false
  | .file name meta => by
    intro o ho
    rw [walkTree] at ho
    by_cases hd : dotted name = true
    · rw [h, hd] at ho
      simp at ho
    · split at ho
      · simp at ho
      · split at ho
        · simp at ho
        · split at ho
          · simp at ho
          · rw [List.mem_singleton] at ho
            rw [ho]
            exact eq_false_of_ne_true hd
  | .dir name children => by
    intro o ho
    rw [walkTree] at ho
    split at ho
    · simp at ho
    · split at ho
      · simp at ho
      · exact walkForest_no_dotted opts h path children o ho
theorem walkForest_no_dotted (opts : IndexOptions)
    (h : opts.includeHidden = false) (dirPath : List Char) :
    (f : FSForest) → ∀ o ∈ walkForest opts dirPath f, dotted o.name = false
  | .nil => by
    intro o ho
    rw [walkForest] at ho
    simp at ho
  | .cons t ts => by
    intro o ho
    rw [walkForest] at ho
    rcases List.mem_append.mp ho with h1 | h2
    · exact walkTree_no_dotted opts h _ t o h1
    · exact walkForest_no_dotted opts h dirPath ts o h2
end

/-- C5 amended: with `IncludeHidden` false, every file entry with a dot
basename is skipped and every directory entry with a dot basename is pruned
with its entire subtree, except a directory visited at path exactly `"."` —
i.e. the traversal root when the configured root was the cleaned path `"."`
— which is still descended into; any other root whose basename starts with
a dot is itself pruned.  Consequently no observed entry has a dot
basename. -/
theorem hidden_policy_amended (opts : IndexOptions)
    (h : opts.includeHidden = false) :
    (∀ path name meta, dotted name = true →
      walkTree opts path (.file name meta) = []) ∧
    (∀ path name children, dotted name = true → path ≠ ['.'] →
      walkTree opts path (.dir name children) = []) ∧
    (∀ name children, opts.ignoreDirs.contains name = false →
      walkTree opts ['.'] (.dir name children) =
        walkForest opts ['.'] children) ∧
    (∀ path t, ∀ o ∈ walkTree opts path t, dotted o.name = false) := by
  refine ⟨?_, ?_, ?_, ?_⟩
  · intro path name meta hd
    rw [walkTree, h, hd]
    rfl
  · intro path name children hd hp
    rw [walkTree]
    by_cases hi : opts.ignoreDirs.contains name = true
    · rw [if_pos hi]
    · rw [if_neg hi, if_pos (by rw [h, hd]; simpa using hp)]
  · intro name children hi
    rw [walkTree, if_neg (by rw [hi]; exact Bool.false_ne_true),
      if_neg (by simp)]
  · exact fun path t => walkTree_no_dotted opts h path t

/-- Witness for C5's amended claim: a dotted file, a dotted directory away
from `"."`, and the dotted root `"."` itself. -/
theorem hidden_policy_amended_witness :
    walkTree ⟨false, false, DefaultIgnoreDirs, none⟩ ['/', 'r']
        (.file ['.', 'e', 'n', 'v'] ⟨1, 1, false⟩) = [] ∧
    walkTree ⟨false, false, DefaultIgnoreDirs, none⟩ ['/', 'r']
        (.dir ['.', 'd'] FSForest.nil) = [] ∧
    walkTree ⟨false, false, DefaultIgnoreDirs, none⟩ ['.']
        (.dir ['.'] (FSForest.cons (.file ['a'] ⟨1, 1, false⟩) FSForest.nil)) =
      walkForest ⟨false, false, DefaultIgnoreDirs, none⟩ ['.']
        (FSForest.cons (.file ['a'] ⟨1, 1, false⟩) FSForest.nil) :=
  ⟨(hidden_policy_amended _ rfl).1 ['/', 'r'] ['.', 'e', 'n', 'v']
      ⟨1, 1, false⟩ (by decide),
    (hidden_policy_amended _ rfl).2.1 ['/', 'r'] ['.', 'd'] FSForest.nil
      (by decide) (by decide),
    (hidden_policy_amended _ rfl).2.2.1 ['.']
      (FSForest.cons (.file ['a'] ⟨1, 1, false⟩) FSForest.nil) (by decide)⟩

/-! ### Normalize idempotence (C9) -/

theorem char_le_iff_toNat (a b : Char) : a ≤ b ↔ a.toNat ≤ b.toNat := by
  rw [Char.le_def, UInt32.le_def]
  exact Iff.rfl

theorem toNat_toLowerGo_of_upper (c : Char) (h : 'A' ≤ c ∧ c ≤ 'Z') :
    (toLowerGo c).toNat = c.toNat + 32 := by
  rw [toLowerGo, if_pos h]
  have h90 : c.toNat ≤ 90 := (char_le_iff_toNat c 'Z').mp h.2
  have hv : (c.toNat + 32).isValidChar := Or.inl (by omega)
  rw [Char.ofNat, dif_pos hv]
  rfl

theorem toLowerGo_idem (c : Char) : toLowerGo (toLowerGo c) = toLowerGo c := by
  by_cases h : 'A' ≤ c ∧ c ≤ 'Z'
  · have ht : (toLowerGo c).toNat = c.toNat + 32 := toNat_toLowerGo_of_upper c h
    have h65 : 65 ≤ c.toNat := (char_le_iff_toNat 'A' c).mp h.1
    rw [toLowerGo, if_neg]
    rintro ⟨-, hz⟩
    have hzn := (char_le_iff_toNat (toLowerGo c) 'Z').mp hz
    rw [ht] at hzn
    have hz90 : ('Z' : Char).toNat = 90 := by decide
    omega
  · rw [show toLowerGo c = c from by rw [toLowerGo, if_neg h]]
    rw [toLowerGo, if_neg h]

theorem mem_replaceSpaceyAux :
    ∀ (l : List Char) (b : Bool) (c : Char), c ∈ replaceSpaceyAux b l →
      c = ' ' ∨ (c ∈ l ∧ isSpacey c = false) := by
  intro l
  induction l with
  | nil => intro b c hc; simp [replaceSpaceyAux] at hc
  | cons a l ih =>
    intro b c hc
    by_cases ha : isSpacey a = true
    · rw [replaceSpaceyAux, if_pos ha] at hc
      rcases List.mem_append.mp hc with h1 | h2
      · left
        cases b <;> simp_all
      · rcases ih true c h2 with h3 | ⟨h4, h5⟩
        · exact Or.inl h3
        · exact Or.inr ⟨List.mem_cons_of_mem a h4, h5⟩
    · rw [replaceSpaceyAux, if_neg ha] at hc
      rcases List.mem_cons.mp hc with rfl | h2
      · exact Or.inr ⟨List.mem_cons_self _ _, eq_false_of_ne_true ha⟩
      · rcases ih false c h2 with h3 | ⟨h4, h5⟩
        · exact Or.inl h3
        · exact Or.inr ⟨List.mem_cons_of_mem a h4, h5⟩

theorem mem_trimSpace (l : List Char) (c : Char) (hc : c ∈ trimSpace l) :
    c ∈ l := by
  unfold trimSpace at hc
  rw [List.mem_reverse] at hc
  have h1 := List.Sublist.mem hc (List.dropWhile_sublist isSpaceGo)
  rw [List.mem_reverse] at h1
  exact List.Sublist.mem h1 (List.dropWhile_sublist isSpaceGo)

theorem mem_collapseWS :
    ∀ (l : List Char) (b : Bool) (c : Char), c ∈ collapseWS l b →
      c = ' ' ∨ (c ∈ l ∧ isSpaceGo c = false) := by
  intro l
  induction l with
  | nil => intro b c hc; simp [collapseWS] at hc
  | cons a l ih =>
    intro b c hc
    by_cases ha : isSpaceGo a = true
    · cases b with
      | true =>
        rw [collapseWS, if_pos ha] at hc
        rcases ih true c hc with h3 | ⟨h4, h5⟩
        · exact Or.inl h3
        · exact Or.inr ⟨List.mem_cons_of_mem a h4, h5⟩
      | false =>
        rw [collapseWS, if_pos ha] at hc
        rcases List.mem_cons.mp hc with rfl | h2
        · exact Or.inl rfl
        · rcases ih true c h2 with h3 | ⟨h4, h5⟩
          · exact Or.inl h3
          · exact Or.inr ⟨List.mem_cons_of_mem a h4, h5⟩
    · rw [collapseWS, if_neg ha] at hc
      rcases List.mem_cons.mp hc with rfl | h2
      · exact Or.inr ⟨List.mem_cons_self _ _, eq_false_of_ne_true ha⟩
      · rcases ih false c h2 with h3 | ⟨h4, h5⟩
        · exact Or.inl h3
        · exact Or.inr ⟨List.mem_cons_of_mem a h4, h5⟩

theorem head?_dropWhile_not (p : Char → Bool) (l : List Char) :
    ∀ c, (l.dropWhile p).head? = some c → p c = false := by
  induction l with
  | nil => intro c hc; simp [List.dropWhile] at hc
  | cons a l ih =>
    intro c hc
    rw [List.dropWhile_cons] at hc
    split at hc
    · exact ih c hc
    · rw [List.head?_cons, Option.some.injEq] at hc
      subst hc
      rename_i h
      exact eq_false_of_ne_true h

theorem prefix_head?_eq {l₁ l₂ : List Char} (h : l₁ <+: l₂) (hne : l₁ ≠ []) :
    l₁.head? = l₂.head? := by
  obtain ⟨t, rfl⟩ := h
  cases l₁ with
  | nil => exact absurd rfl hne
  | cons a l => simp

theorem trim_head (l : List Char) (c : Char)
    (hc : (trimSpace l).head? = some c) : isSpaceGo c = false := by
  unfold trimSpace at hc
  set y := l.dropWhile isSpaceGo with hy
  have hsuf : y.reverse.dropWhile isSpaceGo <:+ y.reverse :=
    List.dropWhile_suffix isSpaceGo
  have hpre : (y.reverse.dropWhile isSpaceGo).reverse <+: y := by
    have := List.reverse_prefix.mpr hsuf
    rwa [List.reverse_reverse] at this
  have hne : (y.reverse.dropWhile isSpaceGo).reverse ≠ [] := by
    intro h0
    rw [h0] at hc
    simp at hc
  rw [prefix_head?_eq hpre hne] at hc
  exact head?_dropWhile_not isSpaceGo l c hc

theorem trim_last (l : List Char) (c : Char)
    (hc : (trimSpace l).getLast? = some c) : isSpaceGo c = false := by
  unfold trimSpace at hc
  rw [List.getLast?_reverse] at hc
  exact head?_dropWhile_not isSpaceGo (l.dropWhile isSpaceGo).reverse c hc

theorem isSpaceGo_space : isSpaceGo ' ' = true := by decide

theorem collapse_head_true (l : List Char) :
    ∀ c, (collapseWS l true).head? = some c → c ≠ ' ' := by
  induction l with
  | nil => intro c hc; simp [collapseWS] at hc
  | cons a l ih =>
    intro c hc
    by_cases ha : isSpaceGo a = true
    · rw [collapseWS, if_pos ha] at hc
      exact ih c hc
    · rw [collapseWS, if_neg ha, List.head?_cons, Option.some.injEq] at hc
      subst hc
      intro h0
      rw [h0] at ha
      exact ha isSpaceGo_space

theorem collapse_chain :
    ∀ (l : List Char) (b : Bool), List.Chain' noAdjSp (collapseWS l b) := by
  intro l
  induction l with
  | nil => intro b; simp [collapseWS]
  | cons a l ih =>
    intro b
    by_cases ha : isSpaceGo a = true
    · cases b with
      | true => rw [collapseWS, if_pos ha]; exact ih true
      | false =>
        rw [collapseWS, if_pos ha, if_neg (by simp)]
        rw [List.chain'_cons']
        refine ⟨?_, ih true⟩
        intro y hy
        exact fun hp => collapse_head_true l y hy hp.2
    · rw [collapseWS, if_neg ha]
      rw [List.chain'_cons']
      refine ⟨?_, ih false⟩
      intro y hy
      rintro ⟨ha0, -⟩
      rw [ha0] at ha
      exact ha isSpaceGo_space

theorem collapse_ne_nil :
    ∀ (l : List Char) (b : Bool), l ≠ [] →
      (∀ c, l.getLast? = some c → isSpaceGo c = false) →
      collapseWS l b ≠ [] := by
  intro l
  induction l with
  | nil => intro b h0; exact absurd rfl h0
  | cons a l ih =>
    intro b _ hlast
    by_cases ha : isSpaceGo a = true
    · cases l with
      | nil =>
        have := hlast a rfl
        rw [ha] at this
        exact absurd this (by simp)
      | cons a2 l2 =>
        have hlast2 : ∀ c, (a2 :: l2).getLast? = some c → isSpaceGo c = false := by
          intro c hc
          exact hlast c (by rw [List.getLast?_cons_cons]; exact hc)
        cases b with
        | true =>
          rw [collapseWS, if_pos ha]
          exact ih true (by simp) hlast2
        | false =>
          rw [collapseWS, if_pos ha]
          simp
    · rw [collapseWS, if_neg ha]
      simp

theorem getLast?_cons_of_ne_nil {a : Char} {l : List Char} (h : l ≠ []) :
    (a :: l).getLast? = l.getLast? := by
  obtain ⟨b, l2, rfl⟩ := List.exists_cons_of_ne_nil h
  exact List.getLast?_cons_cons

theorem collapse_last :
    ∀ (l : List Char) (b : Bool) (c : Char),
      (∀ d, l.getLast? = some d → isSpaceGo d = false) →
      (collapseWS l b).getLast? = some c → isSpaceGo c = false := by
  intro l
  induction l with
  | nil => intro b c _ hc; simp [collapseWS] at hc
  | cons a l ih =>
    intro b c hlast hc
    cases l with
    | nil =>
      have ha : isSpaceGo a = false := hlast a rfl
      rw [collapseWS, if_neg (by rw [ha]; exact Bool.false_ne_true)] at hc
      have : collapseWS [] false = [] := rfl
      rw [this] at hc
      simp at hc
      rw [hc] at ha
      exact ha
    | cons a2 l2 =>
      have hlast2 : ∀ d, (a2 :: l2).getLast? = some d → isSpaceGo d = false := by
        intro d hd
        exact hlast d (by rw [List.getLast?_cons_cons]; exact hd)
      have hne2 : (a2 :: l2) ≠ [] := by simp
      by_cases ha : isSpaceGo a = true
      · cases b with
        | true =>
          rw [collapseWS, if_pos ha] at hc
          exact ih true c hlast2 hc
        | false =>
          rw [collapseWS, if_pos ha, if_neg (by simp)] at hc
          rw [getLast?_cons_of_ne_nil (collapse_ne_nil _ true hne2 hlast2)] at hc
          exact ih true c hlast2 hc
      · rw [collapseWS, if_neg ha] at hc
        rw [getLast?_cons_of_ne_nil (collapse_ne_nil _ false hne2 hlast2)] at hc
        exact ih false c hlast2 hc

theorem collapse_head_false (l : List Char) (c : Char)
    (hhead : ∀ d, l.head? = some d → isSpaceGo d = false)
    (hc : (collapseWS l false).head? = some c) : c ≠ ' ' := by
  cases l with
  | nil => simp [collapseWS] at hc
  | cons a l =>
    have ha : isSpaceGo a = false := hhead a rfl
    rw [collapseWS, if_neg (by rw [ha]; exact Bool.false_ne_true),
      List.head?_cons, Option.some.injEq] at hc
    subst hc
    intro h0
    rw [h0] at ha
    rw [isSpaceGo_space] at ha
    simp at ha

theorem map_toLowerGo_id (l : List Char) (h : ∀ c ∈ l, toLowerGo c = c) :
    l.map toLowerGo = l :=
  (List.map_congr_left h).trans (List.map_id l)

theorem replaceSpaceyAux_id :
    ∀ (l : List Char), (∀ c ∈ l, isSpacey c = true → c = ' ') →
      List.Chain' noAdjSp l →
      ∀ b : Bool, (b = true → ∀ d, l.head? = some d → d ≠ ' ') →
      replaceSpaceyAux b l = l := by
  intro l
  induction l with
  | nil => intro _ _ b _; cases b <;> rfl
  | cons a l ih =>
    intro hpt hch b hb
    rw [List.chain'_cons'] at hch
    by_cases ha : isSpacey a = true
    · have haa : a = ' ' := hpt a (List.mem_cons_self a l) ha
      cases b with
      | true => exact absurd haa (hb rfl a rfl)
      | false =>
        rw [replaceSpaceyAux, if_pos ha]
        have hrec : replaceSpaceyAux true l = l := by
          refine ih (fun c hc => hpt c (List.mem_cons_of_mem a hc)) hch.2
            true ?_
          intro _ d hd hd0
          exact hch.1 d hd ⟨haa, hd0⟩
        rw [hrec]
        rw [haa]
        rfl
    · rw [replaceSpaceyAux, if_neg ha]
      rw [ih (fun c hc => hpt c (List.mem_cons_of_mem a hc)) hch.2 false
        (by intro h0; exact absurd h0 Bool.false_ne_true)]

theorem dropWhile_id_of_head (p : Char → Bool) (l : List Char)
    (h : ∀ d, l.head? = some d → p d = false) : l.dropWhile p = l := by
  cases l with
  | nil => rfl
  | cons a l =>
    rw [List.dropWhile_cons, if_neg]
    rw [h a rfl]
    exact Bool.false_ne_true

theorem trimSpace_id (l : List Char)
    (hh : ∀ d, l.head? = some d → isSpaceGo d = false)
    (hl : ∀ d, l.getLast? = some d → isSpaceGo d = false) :
    trimSpace l = l := by
  unfold trimSpace
  rw [dropWhile_id_of_head isSpaceGo l hh]
  rw [dropWhile_id_of_head isSpaceGo l.reverse
    (by intro d hd; rw [List.head?_reverse] at hd; exact hl d hd)]
  exact List.reverse_reverse l

theorem collapseWS_id :
    ∀ (l : List Char), (∀ c ∈ l, isSpaceGo c = true → c = ' ') →
      List.Chain' noAdjSp l →
      ∀ b : Bool, (b = true → ∀ d, l.head? = some d → d ≠ ' ') →
      collapseWS l b = l := by
  intro l
  induction l with
  | nil => intro _ _ b _; cases b <;> rfl
  | cons a l ih =>
    intro hpt hch b hb
    rw [List.chain'_cons'] at hch
    by_cases ha : isSpaceGo a = true
    · have haa : a = ' ' := hpt a (List.mem_cons_self a l) ha
      cases b with
      | true => exact absurd haa (hb rfl a rfl)
      | false =>
        rw [collapseWS, if_pos ha]
        have hrec : collapseWS l true = l := by
          refine ih (fun c hc => hpt c (List.mem_cons_of_mem a hc)) hch.2
            true ?_
          intro _ d hd hd0
          exact hch.1 d hd ⟨haa, hd0⟩
        rw [hrec, haa]
        rfl
    · rw [collapseWS, if_neg ha]
      rw [ih (fun c hc => hpt c (List.mem_cons_of_mem a hc)) hch.2 false
        (by intro h0; exact absurd h0 Bool.false_ne_true)]

theorem toLowerGo_space : toLowerGo ' ' = ' ' := by decide

/-- C9: `Normalize` is idempotent — normalizing an already normalized string
leaves it unchanged, so re-deriving `filename_norm` from a stored filename
inside `Search` agrees with the stored normalization. -/
theorem normalize_idem (s : List Char) :
    Normalize (Normalize s) = Normalize s := by
  set n := Normalize s with hn
  have hmem : ∀ c ∈ n, c = ' ' ∨
      (c ∈ trimSpace (replaceSpaceyAux false (s.map toLowerGo)) ∧
        isSpaceGo c = false) := by
    intro c hc
    exact mem_collapseWS _ false c hc
  have hrep : ∀ c ∈ n, c = ' ' ∨
      (c ∈ s.map toLowerGo ∧ isSpacey c = false ∧ isSpaceGo c = false) := by
    intro c hc
    rcases hmem c hc with h1 | ⟨h2, h3⟩
    · exact Or.inl h1
    · have h4 := mem_trimSpace _ c h2
      rcases mem_replaceSpaceyAux _ false c h4 with h5 | ⟨h6, h7⟩
      · exact Or.inl h5
      · exact Or.inr ⟨h6, h7, h3⟩
  have F1 : ∀ c ∈ n, toLowerGo c = c := by
    intro c hc
    rcases hrep c hc with rfl | ⟨h1, -, -⟩
    · exact toLowerGo_space
    · obtain ⟨d, -, rfl⟩ := List.mem_map.mp h1
      exact toLowerGo_idem d
  have F2 : ∀ c ∈ n, isSpacey c = true → c = ' ' := by
    intro c hc hsp
    rcases hrep c hc with rfl | ⟨-, h2, -⟩
    · rfl
    · rw [hsp] at h2
      exact absurd h2 (by simp)
  have F3 : ∀ c ∈ n, isSpaceGo c = true → c = ' ' := by
    intro c hc hsp
    rcases hrep c hc with rfl | ⟨-, -, h3⟩
    · rfl
    · rw [hsp] at h3
      exact absurd h3 (by simp)
  have F4 : List.Chain' noAdjSp n := collapse_chain _ false
  have F5 : ∀ d, n.head? = some d → d ≠ ' ' := by
    intro d hd
    refine collapse_head_false _ d ?_ hd
    intro e he
    exact trim_head _ e he
  have F5g : ∀ d, n.head? = some d → isSpaceGo d = false := by
    intro d hd
    have hdm : d ∈ n := List.mem_of_mem_head? hd
    by_cases hg : isSpaceGo d = true
    · exact absurd (F3 d hdm hg) (F5 d hd)
    · exact eq_false_of_ne_true hg
  have F6 : ∀ d, n.getLast? = some d → isSpaceGo d = false := by
    intro d hd
    refine collapse_last _ false d ?_ hd
    intro e he
    exact trim_last _ e he
  conv_lhs => rw [Normalize]
  rw [map_toLowerGo_id n F1]
  rw [replaceSpaceyAux_id n F2 F4 false
    (by intro h0; exact absurd h0 Bool.false_ne_true)]
  rw [trimSpace_id n F5g F6]
  rw [collapseWS_id n F3 F4 false
    (by intro h0; exact absurd h0 Bool.false_ne_true)]

end Findex
